import Mathlib

/-!
# brackets-snippets: the snippet collection of `src/Snippets.js`

A shallow embedding of the snippet store (`loadSnippet`, `updateSnippet`,
`deleteSnippet`, `clearAll`, `getAll`, `search`), of the directory registration
(`_registerSnippetDirectory`, `checkDefaultSnippetsDirectories`) and of the path
normalisation in `ensureDefaultSnippetDirectory`.

Modelling conventions.

* A JavaScript string is the list of its UTF-16 code units (`JSString`).
* The module variables `SnippetCollection` and `lastSnippetId` are the two fields of
  an explicit `Store` that every operation receives and returns.
* Objects are records passed by value: every call receives a fresh object.
* Numbers used as counters are natural numbers.
* File system callbacks are modelled by passing their outcome as an argument.
-/

namespace Snippets

/-! ## Strings -/

/-- A JavaScript string: its sequence of UTF-16 code units. -/
abbrev JSString := List Nat

/-- UTF-16 code units of a string literal. -/
def utf16 (s : String) : JSString :=
  s.toList.flatMap fun c =>
    if c.toNat < 65536 then [c.toNat]
    else [55296 + (c.toNat - 65536) / 1024, 56320 + (c.toNat - 65536) % 1024]

/-- The relational operator `a < b` on strings: code units are compared from the
left, a proper prefix is smaller. -/
def strLt : JSString → JSString → Bool
  | _, [] => false
  | [], _ :: _ => true
  | a :: as, b :: bs => if a < b then true else if b < a then false else strLt as bs

/-! ## Snippet records and the store -/

/-- A snippet object. `source` and `snippetFilePath` are `none` when the property is
absent from the object. -/
structure Snippet where
  _id : Nat
  name : JSString
  template : JSString
  source : Option JSString
  snippetFilePath : Option JSString
  deriving DecidableEq, Repr

/-- The module state: `SnippetCollection` and `lastSnippetId`. -/
structure Store where
  SnippetCollection : List Snippet
  lastSnippetId : Nat
  deriving DecidableEq, Repr

/-- The state when the module is loaded: `SnippetCollection = []`, `lastSnippetId = 0`. -/
def Store.initial : Store := ⟨[], 0⟩

/-- The comparator handed to `sort` in `_sortSnippets`, as the sign it returns. -/
def compareNames (a b : Snippet) : Int :=
  if strLt a.name b.name then -1 else if strLt b.name a.name then 1 else 0

/-- One insertion step of the sort: `x`, which stood before all of the records of the
sorted list, goes before the first of them that does not compare smaller than it, so it
stays in front of the records it compares equal to. -/
def sortInsert (x : Snippet) : List Snippet → List Snippet
  | [] => [x]
  | y :: ys => if compareNames x y ≤ 0 then x :: y :: ys else y :: sortInsert x ys

/-- The call of `Array.prototype.sort` with the comparator `compareNames`, as a stable
insertion sort: records whose names compare equal keep their relative order. -/
def sortWithCompare (l : List Snippet) : List Snippet :=
  l.foldr sortInsert []

/-- The function `_sortSnippets()`: sorts the collection in place by name. -/
def _sortSnippets (st : Store) : Store :=
  { st with SnippetCollection := sortWithCompare st.SnippetCollection }

/-- The function `getAll()`: the live collection. -/
def getAll (st : Store) : List Snippet := st.SnippetCollection

/-- Truthiness of a string-valued property: absent and `""` are falsy. -/
def truthy : Option JSString → Bool
  | none => false
  | some s => !s.isEmpty

/-- The value of `ignoreLoad` computed by `loadSnippet` (lines 42-65) from the record
found under the candidate's name. An unknown source is reported with `ErrorHandler.show`
and the load goes on. -/
def ignoreLoadFor (existingSnippet : Option Snippet) (snippet : Snippet) : Bool :=
  match existingSnippet with
  | none => false
  | some e =>
    if !truthy e.source || e.source == some (utf16 "directory") then false
    else if e.source == some (utf16 "user") then
      (if snippet.source != some (utf16 "user") then true else false)
    else if e.source == some (utf16 "gist") then
      (if snippet.source != some (utf16 "user") && snippet.source != some (utf16 "gist")
        then true else false)
    else false

/-- The value of `ignoreLoad` when `loadSnippet(snippet)` reaches line 67:
`existingSnippet` is the first record of the collection with the candidate's name. -/
def ignoreLoad (st : Store) (snippet : Snippet) : Bool :=
  ignoreLoadFor (st.SnippetCollection.find? fun s => s.name == snippet.name) snippet

/-- The function `loadSnippet(snippet)`: the store after the call and the argument object after the
call (its `_id` is written when the load is not ignored). -/
def loadSnippet (st : Store) (snippet : Snippet) : Store × Snippet :=
  let existingSnippet := st.SnippetCollection.find? fun s => s.name == snippet.name
  if ignoreLoadFor existingSnippet snippet then (st, snippet)
  else
    let coll :=
      match existingSnippet with
      | none => st.SnippetCollection
      | some e =>
        let io := st.SnippetCollection.indexOf e
        if io < st.SnippetCollection.length then st.SnippetCollection.eraseIdx io
        else st.SnippetCollection
    let lastSnippetId := st.lastSnippetId + 1
    let snippet := { snippet with _id := lastSnippetId }
    (_sortSnippets ⟨coll ++ [snippet], lastSnippetId⟩, snippet)

/-- The loop `Object.keys(newSnippet).forEach(key => oldSnippet[key] = newSnippet[key])`:
every property present on `newSnippet` overwrites the one of `oldSnippet`. -/
def assignKeys (oldSnippet newSnippet : Snippet) : Snippet :=
  { _id := newSnippet._id
    name := newSnippet.name
    template := newSnippet.template
    source := match newSnippet.source with
      | some v => some v
      | none => oldSnippet.source
    snippetFilePath := match newSnippet.snippetFilePath with
      | some v => some v
      | none => oldSnippet.snippetFilePath }

/-- Mutation in place of the object `_.find` returns: the first record with the given
`_id` is overwritten where it stands. -/
def assignFirst (newSnippet : Snippet) : List Snippet → List Snippet
  | [] => []
  | s :: rest =>
    if s._id == newSnippet._id then assignKeys s newSnippet :: rest
    else s :: assignFirst newSnippet rest

/-- The function `updateSnippet(newSnippet)`. When no record has the `_id`, `oldSnippet` is
`undefined` and the first assignment throws a `TypeError` before anything is changed. -/
def updateSnippet (st : Store) (newSnippet : Snippet) : Except String Store :=
  match st.SnippetCollection.find? fun s => s._id == newSnippet._id with
  | none => .error "TypeError"
  | some _ =>
    .ok (_sortSnippets { st with SnippetCollection := assignFirst newSnippet st.SnippetCollection })

/-- The loop of `deleteSnippet` (lines 118-123), entered with `idx = length`: it walks
the indices downwards and splices out every record whose `_id` matches. The index read
is always below the length; the last branch is never taken. -/
def deleteLoop (id : Nat) : Nat → List Snippet → List Snippet
  | 0, coll => coll
  | idx + 1, coll =>
    match coll[idx]? with
    | some s => if s._id == id then deleteLoop id idx (coll.eraseIdx idx) else deleteLoop id idx coll
    | none => deleteLoop id idx coll

/-- How a promise settles. -/
inductive Settled where
  | resolved
  | rejected
  deriving DecidableEq, Repr

/-- The function `deleteSnippet(snippet)`. `resolveErr` is the error `FileSystem.resolve` hands to its
callback and `unlinkErr` the one of `file.unlink` (`none`: no error); `if (err)` tests
their truthiness. -/
def deleteSnippet (st : Store) (snippet : Snippet) (resolveErr unlinkErr : Option JSString) :
    Store × Settled :=
  if truthy resolveErr then (st, .rejected)
  else if truthy unlinkErr then (st, .rejected)
  else
    ({ st with SnippetCollection :=
        deleteLoop snippet._id st.SnippetCollection.length st.SnippetCollection }, .resolved)

/-- The loop of `clearAll`: `splice(0, 1)` while the collection is not empty. -/
def clearLoop : List Snippet → List Snippet
  | [] => []
  | _ :: rest => clearLoop rest

/-- The function `clearAll()`; no file is touched. -/
def clearAll (st : Store) : Store :=
  { st with SnippetCollection := clearLoop st.SnippetCollection }

/-! ## Sequences of mutations -/

/-- A call of one of the four mutating operations, with the file system outcome for a
deletion. -/
inductive Op where
  | load (snippet : Snippet)
  | update (newSnippet : Snippet)
  | delete (snippet : Snippet) (resolveErr unlinkErr : Option JSString)
  | clear
  deriving DecidableEq, Repr

/-- The store after one call. An `updateSnippet` that throws leaves the store as it was. -/
def step (st : Store) : Op → Store
  | .load snippet => (loadSnippet st snippet).1
  | .update newSnippet =>
    match updateSnippet st newSnippet with
    | .ok st' => st'
    | .error _ => st
  | .delete snippet resolveErr unlinkErr => (deleteSnippet st snippet resolveErr unlinkErr).1
  | .clear => clearAll st

/-- The store after a sequence of calls. -/
def run (st : Store) (ops : List Op) : Store :=
  ops.foldl step st

/-- The ids written by the loads of a sequence that were not ignored, in call order. -/
def assignedIds : Store → List Op → List Nat
  | _, [] => []
  | st, .load snippet :: ops =>
    (if ignoreLoad st snippet then [] else [(loadSnippet st snippet).2._id]) ++
      assignedIds (step st (.load snippet)) ops
  | st, op :: ops => assignedIds (step st op) ops

/-- A store the module can be in: the result of some sequence of calls on the
initial store. -/
def Reachable (st : Store) : Prop :=
  ∃ ops : List Op, st = run Store.initial ops

/-- No two records of the collection have the same name. -/
def UniqueNames (coll : List Snippet) : Prop :=
  (coll.map (·.name)).Nodup

/-- The collection is ascending by name under `strLt`. -/
def SortedByName (coll : List Snippet) : Prop :=
  coll.Pairwise fun a b => strLt b.name a.name = false

/-- The ids in the collection are pairwise distinct and lie between 1 and the counter. -/
def IdsFresh (st : Store) : Prop :=
  (st.SnippetCollection.map (·._id)).Nodup ∧
    ∀ s ∈ st.SnippetCollection, 1 ≤ s._id ∧ s._id ≤ st.lastSnippetId

/-! ## The default directory and the directory registrations -/

/-- The function `getDefaultSnippetDirectory()`; `appSupport` is what
`brackets.app.getApplicationSupportDirectory()` returns. -/
def getDefaultSnippetDirectory (appSupport : JSString) : JSString :=
  appSupport ++ utf16 "/snippets/"

/-- The call `s.replace(/\\/g, "/")`: every backslash (code unit 92) becomes a slash (47). -/
def replaceBackslashes (s : JSString) : JSString :=
  s.map fun c => if c = 92 then 47 else c

/-- The call `s.slice(-1)`: the last code unit as a string, `""` for the empty string. -/
def sliceLast (s : JSString) : JSString :=
  s.drop (s.length - 1)

/-- Lines 269-272 of `ensureDefaultSnippetDirectory`: a slash is appended when the last
character is not one. -/
def fixTrailingSlash (defaultSnippetDirectory : JSString) : JSString :=
  if sliceLast defaultSnippetDirectory != utf16 "/" then defaultSnippetDirectory ++ utf16 "/"
  else defaultSnippetDirectory

/-- Lines 261-272 of `ensureDefaultSnippetDirectory`: the path that is handed to
`FileSystem.resolve`. `pref` is the value of the preference `defaultSnippetDirectory`. -/
def defaultDirectoryPath (pref : Option JSString) (appSupport : JSString) : JSString :=
  let defaultSnippetDirectory :=
    if !truthy pref then getDefaultSnippetDirectory appSupport else pref.getD []
  fixTrailingSlash (replaceBackslashes defaultSnippetDirectory)

/-- What a call of `ensureDefaultSnippetDirectory` did: the path it resolved, how the
returned promise settled, and the value it stored under `defaultSnippetDirectory`. -/
structure EnsureResult where
  path : JSString
  settled : Settled
  persisted : JSString
  deriving DecidableEq, Repr

/-- The function `ensureDefaultSnippetDirectory()`. `resolveErr` and `isDirectory` are what
`FileSystem.resolve` hands to its callback, `makedirErr` what `brackets.fs.makedir`
hands to its callback. -/
def ensureDefaultSnippetDirectory (pref : Option JSString) (appSupport : JSString)
    (resolveErr : Option JSString) (isDirectory : Bool) (makedirErr : Option JSString) :
    EnsureResult :=
  let defaultSnippetDirectory := defaultDirectoryPath pref appSupport
  let settled : Settled :=
    if resolveErr == some (utf16 "NotFound") then
      (if truthy makedirErr then .rejected else .resolved)
    else if truthy resolveErr then .rejected
    else if !isDirectory then .rejected
    else .resolved
  match settled with
  | .rejected => ⟨defaultSnippetDirectory, .rejected, getDefaultSnippetDirectory appSupport⟩
  | .resolved => ⟨defaultSnippetDirectory, .resolved, defaultSnippetDirectory⟩

/-- An entry of the preference `snippetDirectories`. -/
structure DirectoryRegistration where
  fullPath : JSString
  autoLoad : Bool
  deriving DecidableEq, Repr

/-- A file system entry as `getContents` lists it. -/
structure Entry where
  fullPath : JSString
  isDirectory : Bool
  deriving DecidableEq, Repr

/-- The function `_registerSnippetDirectory(directory)`. The preference `snippetDirectories` is read
with `Preferences.get` and written back with `Preferences.set`; it is passed in and
returned here. -/
def _registerSnippetDirectory (snippetDirectories : List DirectoryRegistration)
    (directory : Entry) : List DirectoryRegistration :=
  match snippetDirectories.find? fun e => e.fullPath == directory.fullPath with
  | some _ => snippetDirectories
  | none => snippetDirectories ++ [⟨directory.fullPath, true⟩]

/-- The function `checkDefaultSnippetsDirectories()`. `resolveErr` is the error of resolving the
bundled `default_snippets` folder, `contentsErr` and `contents` are what `getContents`
hands to its callback. -/
def checkDefaultSnippetsDirectories (snippetDirectories : List DirectoryRegistration)
    (resolveErr contentsErr : Option JSString) (contents : List Entry) :
    List DirectoryRegistration × Settled :=
  if truthy resolveErr then (snippetDirectories, .rejected)
  else if truthy contentsErr then (snippetDirectories, .rejected)
  else (contents.foldl _registerSnippetDirectory snippetDirectories, .resolved)

/-! ## Regular expressions

`search` builds `new RegExp(escapeRegExp(query), "i")` and calls `test` on every name.
The pattern grammar and the matching are those of ECMAScript without the `u` flag, on
code units, for the fragment below; a pattern outside the fragment (back references,
legacy octal escapes, named groups, look-behind) or with a syntax error has no parse.
-/

/-- An element of a character class. -/
inductive CharSet where
  | range (lo hi : Nat)
  | digit (negated : Bool)
  | word (negated : Bool)
  | space (negated : Bool)
  deriving DecidableEq, Repr

/-- A parsed pattern. Greedy and lazy quantifiers are not told apart: `test` only
reports whether a match exists. -/
inductive Regex where
  | empty
  | char (c : Nat)
  | any
  | set (negated : Bool) (items : List CharSet)
  | lineStart
  | lineEnd
  | wordBoundary (negated : Bool)
  | lookahead (negated : Bool) (r : Regex)
  | group (r : Regex)
  | seq (r s : Regex)
  | alt (r s : Regex)
  | rep (r : Regex) (min : Nat) (max : Option Nat)
  deriving DecidableEq, Repr

/-- The characters `escapeRegExp` puts a backslash before: the class
`[.*+?^${}()|\[\]\/\\]`. -/
def escapedCharacters : List Nat :=
  [46, 42, 43, 63, 94, 36, 123, 125, 40, 41, 124, 91, 93, 47, 92]

/-- The function `escapeRegExp(string)`: `string.replace(/([.*+?^${}()|\[\]\/\\])/g, "\\$1")`. -/
def escapeRegExp (string : JSString) : JSString :=
  string.flatMap fun c => if c ∈ escapedCharacters then [92, c] else [c]

/-- The decimal digits `0`-`9`. -/
def isDigit (c : Nat) : Bool := 48 ≤ c && c ≤ 57

/-- The letters `A`-`Z` and `a`-`z`. -/
def isAsciiLetter (c : Nat) : Bool := (65 ≤ c && c ≤ 90) || (97 ≤ c && c ≤ 122)

/-- The members of `\w`: letters, digits and the underscore. -/
def isWordChar (c : Nat) : Bool := isAsciiLetter c || isDigit c || c == 95

/-- The hexadecimal digits. -/
def isHexDigit (c : Nat) : Bool :=
  isDigit c || (65 ≤ c && c ≤ 70) || (97 ≤ c && c ≤ 102)

/-- Value of a hexadecimal digit. -/
def hexValue (c : Nat) : Nat :=
  if isDigit c then c - 48 else if 97 ≤ c then c - 87 else c - 55

/-- The line terminators, which `.` does not match. -/
def isLineTerminator (c : Nat) : Bool := c == 10 || c == 13 || c == 8232 || c == 8233

/-- White space and line terminators, the members of `\s`. -/
def isSpace (c : Nat) : Bool :=
  c == 9 || c == 11 || c == 12 || c == 32 || c == 160 || c == 5760 ||
    (8192 ≤ c && c ≤ 8202) || c == 8239 || c == 8287 || c == 12288 || c == 65279 ||
    isLineTerminator c

/-- Value of a run of decimal digits. -/
def decimalValue (ds : List Nat) : Nat :=
  ds.foldl (fun n d => 10 * n + (d - 48)) 0

/-- The inside of a braced quantifier, after the opening brace: `n}`, `n,}` or `n,m}`. -/
def parseBraces (input : List Nat) : Option (Nat × Option Nat × List Nat) :=
  let ds := input.takeWhile isDigit
  let rest := input.dropWhile isDigit
  if ds.isEmpty then none
  else
    match rest with
    | 125 :: rest' => some (decimalValue ds, some (decimalValue ds), rest')
    | 44 :: rest' =>
      let es := rest'.takeWhile isDigit
      match rest'.dropWhile isDigit with
      | 125 :: rest'' =>
        if es.isEmpty then some (decimalValue ds, none, rest'')
        else some (decimalValue ds, some (decimalValue es), rest'')
      | _ => none
    | _ => none

/-- A `?` after a quantifier makes it lazy; it is consumed. -/
def skipLazy : List Nat → List Nat
  | 63 :: rest => rest
  | rest => rest

/-- The optional quantifier after an atom: `*`, `+`, `?` or braces. A brace that does not
open a quantifier is left for the next atom. -/
def parseQuantifier (atom : Regex) (input : List Nat) : Option (Regex × List Nat) :=
  match input with
  | [] => some (atom, [])
  | c :: rest =>
    if c = 42 then some (.rep atom 0 none, skipLazy rest)
    else if c = 43 then some (.rep atom 1 none, skipLazy rest)
    else if c = 63 then some (.rep atom 0 (some 1), skipLazy rest)
    else if c = 123 then
      match parseBraces rest with
      | some (lo, some hi, rest') =>
        if hi < lo then none else some (.rep atom lo (some hi), skipLazy rest')
      | some (lo, none, rest') => some (.rep atom lo none, skipLazy rest')
      | none => some (atom, input)
    else some (atom, input)

/-- The class escapes `\d \D \w \W \s \S`. -/
def classEscape (e : Nat) : Option CharSet :=
  if e = 100 then some (.digit false)
  else if e = 68 then some (.digit true)
  else if e = 119 then some (.word false)
  else if e = 87 then some (.word true)
  else if e = 115 then some (.space false)
  else if e = 83 then some (.space true)
  else none

/-- The character an escape stands for, `e` being the code unit after the backslash:
control escapes, `\0`, `\cX`, `\xHH`, `\uHHHH`, and the identity escape for every other
character. Decimal escapes other than `\0` have no parse. -/
def characterEscape (e : Nat) (rest : List Nat) : Option (Nat × List Nat) :=
  if e = 102 then some (12, rest)
  else if e = 110 then some (10, rest)
  else if e = 114 then some (13, rest)
  else if e = 116 then some (9, rest)
  else if e = 118 then some (11, rest)
  else if e = 48 then
    match rest with
    | d :: _ => if isDigit d then none else some (0, rest)
    | [] => some (0, rest)
  else if isDigit e then none
  else if e = 99 then
    match rest with
    | l :: rest' => if isAsciiLetter l then some (l % 32, rest') else none
    | [] => none
  else if e = 120 then
    match rest with
    | h1 :: h2 :: rest' =>
      if isHexDigit h1 && isHexDigit h2 then some (16 * hexValue h1 + hexValue h2, rest')
      else some (120, rest)
    | _ => some (120, rest)
  else if e = 117 then
    match rest with
    | h1 :: h2 :: h3 :: h4 :: rest' =>
      if isHexDigit h1 && isHexDigit h2 && isHexDigit h3 && isHexDigit h4 then
        some (4096 * hexValue h1 + 256 * hexValue h2 + 16 * hexValue h3 + hexValue h4, rest')
      else some (117, rest)
    | _ => some (117, rest)
  else some (e, rest)

/-- One atom of a character class. -/
def parseClassAtom (input : List Nat) : Option (CharSet × List Nat) :=
  match input with
  | [] => none
  | c :: rest =>
    if c = 92 then
      match rest with
      | [] => none
      | e :: rest' =>
        if e = 98 then some (.range 8 8, rest')
        else
          match classEscape e with
          | some cs => some (cs, rest')
          | none =>
            match characterEscape e rest' with
            | some (ch, rest'') => some (.range ch ch, rest'')
            | none => none
    else some (.range c c, rest)

/-- The atoms and ranges of a character class up to the closing bracket. -/
def parseClassItems : Nat → List Nat → Option (List CharSet × List Nat)
  | 0, _ => none
  | _ + 1, [] => none
  | fuel + 1, c :: rest =>
    if c = 93 then some ([], rest)
    else
      match parseClassAtom (c :: rest) with
      | none => none
      | some (a, rest1) =>
        match rest1 with
        | 45 :: 93 :: rest2 => some ([a, .range 45 45], rest2)
        | 45 :: d :: rest2 =>
          match parseClassAtom (d :: rest2) with
          | none => none
          | some (b, rest3) =>
            match a, b, parseClassItems fuel rest3 with
            | .range lo _, .range _ hi, some (items, rest4) =>
              if hi < lo then none else some (.range lo hi :: items, rest4)
            | _, _, some (items, rest4) => some (a :: .range 45 45 :: b :: items, rest4)
            | _, _, none => none
        | _ =>
          match parseClassItems fuel rest1 with
          | some (items, rest2) => some (a :: items, rest2)
          | none => none

/-- A character class, after the opening bracket. -/
def parseClass (input : List Nat) : Option (Regex × List Nat) :=
  match input with
  | 94 :: rest =>
    match parseClassItems (rest.length + 1) rest with
    | some (items, rest') => some (.set true items, rest')
    | none => none
  | _ =>
    match parseClassItems (input.length + 1) input with
    | some (items, rest') => some (.set false items, rest')
    | none => none

/-- An atom or assertion that is not a group, with whether a quantifier may follow it. -/
def parseAtom (input : List Nat) : Option (Regex × Bool × List Nat) :=
  match input with
  | [] => none
  | c :: rest =>
    if c = 94 then some (.lineStart, false, rest)
    else if c = 36 then some (.lineEnd, false, rest)
    else if c = 46 then some (.any, true, rest)
    else if c = 92 then
      match rest with
      | [] => none
      | e :: rest' =>
        if e = 98 then some (.wordBoundary false, false, rest')
        else if e = 66 then some (.wordBoundary true, false, rest')
        else
          match classEscape e with
          | some cs => some (.set false [cs], true, rest')
          | none =>
            match characterEscape e rest' with
            | some (ch, rest'') => some (.char ch, true, rest'')
            | none => none
    else if c = 91 then
      match parseClass rest with
      | some (r, rest') => some (r, true, rest')
      | none => none
    else if c = 42 ∨ c = 43 ∨ c = 63 then none
    else if c = 123 then
      match parseBraces rest with
      | some _ => none
      | none => some (.char 123, true, rest)
    else some (.char c, true, rest)

/-- A quantifier is parsed after a quantifiable term only. -/
def parseTermTail (term : Regex) (quantifiable : Bool) (input : List Nat) :
    Option (Regex × List Nat) :=
  if quantifiable then parseQuantifier term input else some (term, input)

/-- The alternatives of a disjunction put back together. -/
def joinAlternatives (first : Regex) : Option Regex → Regex
  | none => first
  | some others => .alt first others

/-- The kind of group an opening parenthesis starts: how to wrap the disjunction inside,
whether a quantifier may follow, and the input after the group prefix. -/
def groupKind (input : List Nat) : Option ((Regex → Regex) × Bool × List Nat) :=
  match input with
  | 63 :: 58 :: rest => some (Regex.group, true, rest)
  | 63 :: 61 :: rest => some (Regex.lookahead false, false, rest)
  | 63 :: 33 :: rest => some (Regex.lookahead true, false, rest)
  | 63 :: _ => none
  | rest => some (Regex.group, true, rest)

/-- A disjunction, from some point inside one of its alternatives: the rest of that
alternative, the alternatives after the next `|`, and the input left, which is empty or
starts with the closing parenthesis. -/
def parseDisjunction : Nat → List Nat → Option (Regex × Option Regex × List Nat)
  | 0, _ => none
  | _ + 1, [] => some (.empty, none, [])
  | fuel + 1, c :: rest =>
    if c = 41 then some (.empty, none, c :: rest)
    else if c = 124 then
      match parseDisjunction fuel rest with
      | some (first, others, rest') => some (.empty, some (joinAlternatives first others), rest')
      | none => none
    else
      let term : Option (Regex × List Nat) :=
        if c = 40 then
          match groupKind rest with
          | none => none
          | some (wrap, quantifiable, inner) =>
            match parseDisjunction fuel inner with
            | some (first, others, 41 :: rest') =>
              parseTermTail (wrap (joinAlternatives first others)) quantifiable rest'
            | _ => none
        else
          match parseAtom (c :: rest) with
          | some (atom, quantifiable, rest') => parseTermTail atom quantifiable rest'
          | none => none
      match term with
      | none => none
      | some (t, rest') =>
        match parseDisjunction fuel rest' with
        | some (first, others, rest'') => some (.seq t first, others, rest'')
        | none => none

/-- The parse of a whole pattern: `new RegExp(pattern)`; `none` when the constructor
throws or the pattern is outside the fragment. -/
def parsePattern (pattern : JSString) : Option Regex :=
  match parseDisjunction (pattern.length + 1) pattern with
  | some (first, others, []) => some (joinAlternatives first others)
  | _ => none

/-- Canonicalize of the `i` flag: the upper case of the code unit when that is a single
code unit, unless it would turn a non-ASCII character into an ASCII one. `toUpperCase`
is `String.prototype.toUpperCase` on one-code-unit strings. -/
def canonicalize (toUpperCase : Nat → JSString) (ch : Nat) : Nat :=
  match toUpperCase ch with
  | [cu] => if 128 ≤ ch ∧ cu < 128 then ch else cu
  | _ => ch

/-- Upper case of an ASCII code unit, `a`-`z` becoming `A`-`Z`: what `toUpperCase` gives
on the code units below 128. Other code units are left alone here. -/
def asciiToUpperCase (c : Nat) : JSString :=
  if 97 ≤ c ∧ c ≤ 122 then [c - 32] else [c]

/-- The code units of a class element. -/
def CharSet.has : CharSet → Nat → Bool
  | .range lo hi, a => lo ≤ a && a ≤ hi
  | .digit negated, a => isDigit a != negated
  | .word negated, a => isWordChar a != negated
  | .space negated, a => isSpace a != negated

/-- Whether a class element has a member with the same canonical form as `ch`. -/
def CharSet.hasCanonical (canon : Nat → Nat) (cs : CharSet) (ch : Nat) : Bool :=
  (List.range 65536).any fun a => cs.has a && canon a == canon ch

/-- The end positions of the repetitions of a matcher `m` from position `i`, with at
least `min` and at most `max` rounds; once `min` is reached a round that matches the
empty string is dropped. -/
def repeatEnds (m : Nat → List Nat) : Nat → Nat → Option Nat → Nat → List Nat
  | 0, min, _, i => if min = 0 then [i] else []
  | fuel + 1, min, max, i =>
    (if min = 0 then [i] else []) ++
      (if max = some 0 then []
       else (m i).flatMap fun j =>
        if min = 0 ∧ j = i then []
        else repeatEnds m fuel (min - 1) (max.map (· - 1)) j)

/-- The end positions of the matches of a pattern that start at position `i` of `input`,
under the `i` flag (characters are compared through `canon`) and without the `m` flag. -/
def matchEnds (canon : Nat → Nat) (input : JSString) : Regex → Nat → List Nat
  | .empty, i => [i]
  | .char c, i =>
    match input[i]? with
    | some d => if canon d = canon c then [i + 1] else []
    | none => []
  | .any, i =>
    match input[i]? with
    | some d => if isLineTerminator d then [] else [i + 1]
    | none => []
  | .set negated items, i =>
    match input[i]? with
    | some d => if (items.any fun cs => cs.hasCanonical canon d) != negated then [i + 1] else []
    | none => []
  | .lineStart, i => if i = 0 then [i] else []
  | .lineEnd, i => if i = input.length then [i] else []
  | .wordBoundary negated, i =>
    let a := decide (0 < i) && ((input[i - 1]?).map isWordChar).getD false
    let b := ((input[i]?).map isWordChar).getD false
    if (a != b) != negated then [i] else []
  | .lookahead negated r, i => if (matchEnds canon input r i).isEmpty == negated then [i] else []
  | .group r, i => matchEnds canon input r i
  | .seq r s, i => (matchEnds canon input r i).flatMap fun j => matchEnds canon input s j
  | .alt r s, i => matchEnds canon input r i ++ matchEnds canon input s i
  | .rep r min max, i =>
    repeatEnds (fun j => matchEnds canon input r j) (min + input.length + 1) min max i

/-- The call `regExp.test(string)` for a pattern without the `g` flag: whether a match starts at
some position. -/
def regExpTest (canon : Nat → Nat) (r : Regex) (string : JSString) : Bool :=
  (List.range (string.length + 1)).any fun i => !(matchEnds canon string r i).isEmpty

/-- The function `search(query)`: `none` when `new RegExp` throws. `query` is `none` when the argument
is absent. -/
def search (toUpperCase : Nat → JSString) (st : Store) (query : Option JSString) :
    Option (List Snippet) :=
  if !truthy query then some (getAll st)
  else
    match parsePattern (escapeRegExp (query.getD [])) with
    | none => none
    | some regExp =>
      some (st.SnippetCollection.filter fun snippet =>
        regExpTest (canonicalize toUpperCase) regExp snippet.name)

/-- Lower case of an ASCII code unit: `A`-`Z` become `a`-`z`, every other code unit is
left alone. -/
def asciiLowerCase (c : Nat) : Nat :=
  if 65 ≤ c ∧ c ≤ 90 then c + 32 else c

/-- What the specification asks of `search`, in its own words, for the letters of ASCII:
the name contains the query as a substring once both are put in lower case. -/
def containsIgnoringCase (query name : JSString) : Bool :=
  decide (query.map asciiLowerCase <:+: name.map asciiLowerCase)

/-- The pattern that matches the code units of `s` one after the other. -/
def literal : JSString → Regex
  | [] => .empty
  | c :: cs => .seq (.char c) (literal cs)

/-! ## Facts about the string order and the sort -/

theorem strLt_irrefl : ∀ a : JSString, strLt a a = false
  | [] => rfl
  | a :: as => by simp [strLt, strLt_irrefl as]

theorem strLt_asymm : ∀ a b : JSString, strLt a b = true → strLt b a = false
  | _, [], h => by simp [strLt] at h
  | [], _ :: _, _ => by simp [strLt]
  | a :: as, b :: bs, h => by
    simp only [strLt] at h ⊢
    by_cases h1 : a < b
    · have h2 : ¬ b < a := by omega
      simp [h2, h1]
    · by_cases h2 : b < a
      · simp [h1, h2] at h
      · simp only [h1, h2, if_false] at h ⊢
        exact strLt_asymm as bs h

theorem strLt_trans : ∀ a b c : JSString, strLt a b = true → strLt b c = true → strLt a c = true
  | _, [], _, h, _ => by simp [strLt] at h
  | _, _ :: _, [], _, h => by simp [strLt] at h
  | [], _ :: _, _ :: _, _, _ => by simp [strLt]
  | a :: as, b :: bs, c :: cs, h1, h2 => by
    simp only [strLt] at h1 h2 ⊢
    by_cases hab : a < b
    · by_cases hbc : b < c
      · have : a < c := by omega
        simp [this]
      · by_cases hcb : c < b
        · simp [hbc, hcb] at h2
        · have : a < c := by omega
          simp [this]
    · by_cases hba : b < a
      · simp [hab, hba] at h1
      · simp only [hab, hba, if_false] at h1
        have hab' : a = b := by omega
        subst hab'
        by_cases hac : a < c
        · simp [hac]
        · by_cases hca : c < a
          · simp [hac, hca] at h2
          · simp only [hac, hca, if_false] at h2 ⊢
            exact strLt_trans as bs cs h1 h2

theorem strLt_connected : ∀ a b : JSString, strLt a b = false → strLt b a = false → a = b
  | [], [], _, _ => rfl
  | [], _ :: _, h, _ => by simp [strLt] at h
  | _ :: _, [], _, h => by simp [strLt] at h
  | a :: as, b :: bs, h1, h2 => by
    simp only [strLt] at h1 h2
    by_cases hab : a < b
    · simp [hab] at h1
    · by_cases hba : b < a
      · simp [hba] at h2
      · simp only [hab, hba, if_false] at h1 h2
        have : a = b := by omega
        rw [this, strLt_connected as bs h1 h2]

theorem compareNames_nonpos_iff (a b : Snippet) :
    compareNames a b ≤ 0 ↔ strLt b.name a.name = false := by
  unfold compareNames
  by_cases h1 : strLt a.name b.name = true
  · simp [h1, strLt_asymm _ _ h1]
  · by_cases h2 : strLt b.name a.name = true
    · simp [h1, h2]
    · simp [h1, h2]

theorem sortInsert_perm (x : Snippet) : ∀ l : List Snippet, (sortInsert x l).Perm (x :: l)
  | [] => List.Perm.refl _
  | y :: ys => by
    unfold sortInsert
    split
    · exact List.Perm.refl _
    · exact ((sortInsert_perm x ys).cons y).trans (List.Perm.swap x y ys)

theorem sortWithCompare_perm : ∀ l : List Snippet, (sortWithCompare l).Perm l
  | [] => List.Perm.refl _
  | x :: xs => by
    show (sortInsert x (sortWithCompare xs)).Perm (x :: xs)
    exact (sortInsert_perm x _).trans ((sortWithCompare_perm xs).cons x)

theorem sortInsert_sorted (x : Snippet) :
    ∀ l : List Snippet, SortedByName l → SortedByName (sortInsert x l)
  | [], _ => by simp [sortInsert, SortedByName]
  | y :: ys, h => by
    unfold SortedByName at h ⊢
    rw [List.pairwise_cons] at h
    unfold sortInsert
    split
    · rename_i hle
      rw [compareNames_nonpos_iff] at hle
      refine List.Pairwise.cons ?_ (List.Pairwise.cons h.1 h.2)
      intro z hz
      rcases List.mem_cons.1 hz with rfl | hz
      · exact hle
      · have hyz := h.1 z hz
        by_contra hcon
        have hzx : strLt z.name x.name = true := by simpa using hcon
        by_cases hxy : strLt x.name y.name = true
        · have := strLt_trans _ _ _ hzx hxy
          simp [this] at hyz
        · have hxy' : strLt x.name y.name = false := by simpa using hxy
          have heq := strLt_connected _ _ hxy' hle
          rw [heq] at hzx
          simp [hzx] at hyz
    · rename_i hnle
      rw [compareNames_nonpos_iff] at hnle
      have hyx : strLt y.name x.name = true := by simpa using hnle
      have ih := sortInsert_sorted x ys h.2
      refine List.Pairwise.cons ?_ ih
      intro z hz
      rcases List.mem_cons.1 ((sortInsert_perm x ys).subset hz) with rfl | hz
      · exact strLt_asymm _ _ hyx
      · exact h.1 z hz

/-- The sort is stable: the records of any one name keep their order. -/
theorem sortInsert_filter_name (n : JSString) (x : Snippet) :
    ∀ l : List Snippet,
      (sortInsert x l).filter (fun s => s.name == n) = (x :: l).filter (fun s => s.name == n)
  | [] => rfl
  | y :: ys => by
    unfold sortInsert
    split
    · rfl
    · rename_i hnle
      rw [compareNames_nonpos_iff] at hnle
      have hyx : strLt y.name x.name = true := by simpa using hnle
      have hne : y.name ≠ x.name := by
        intro heq
        rw [heq, strLt_irrefl] at hyx
        cases hyx
      have ih := sortInsert_filter_name n x ys
      by_cases hy : y.name = n
      · have hx : ¬ x.name = n := fun hx => hne (hy.trans hx.symm)
        simp only [List.filter_cons, hy, hx, beq_self_eq_true, if_true, beq_iff_eq, if_false]
          at ih ⊢
        rw [ih]
      · simp only [List.filter_cons, hy, beq_iff_eq, if_false] at ih ⊢
        rw [ih]

theorem sortWithCompare_stable (n : JSString) :
    ∀ l : List Snippet,
      (sortWithCompare l).filter (fun s => s.name == n) = l.filter (fun s => s.name == n)
  | [] => rfl
  | x :: xs => by
    show (sortInsert x (sortWithCompare xs)).filter _ = _
    rw [sortInsert_filter_name, List.filter_cons, List.filter_cons, sortWithCompare_stable n xs]

theorem sortWithCompare_sorted : ∀ l : List Snippet, SortedByName (sortWithCompare l)
  | [] => List.Pairwise.nil
  | x :: xs => by
    show SortedByName (sortInsert x (sortWithCompare xs))
    exact sortInsert_sorted x _ (sortWithCompare_sorted xs)

theorem indexOf_find (p : Snippet → Bool) :
    ∀ (l : List Snippet) (e : Snippet), l.find? p = some e →
      l.indexOf e < l.length ∧ l.eraseIdx (l.indexOf e) = l.eraseP p
  | [], e, h => by simp at h
  | x :: xs, e, h => by
    by_cases hx : p x = true
    · rw [List.find?_cons_of_pos _ hx] at h
      cases h
      simp [List.eraseP_cons_of_pos hx]
    · have hx' : ¬ p x = true := hx
      rw [List.find?_cons_of_neg _ hx'] at h
      have hpe : p e = true := List.find?_some h
      have hne : x ≠ e := fun heq => hx (heq ▸ hpe)
      obtain ⟨h1, h2⟩ := indexOf_find p xs e h
      rw [List.indexOf_cons_ne _ hne]
      simp [List.eraseP_cons_of_neg hx', h1, h2]

/-- The collection after a load that is not ignored: the first record with the
candidate's name is removed, the candidate is pushed with the next id, and the result
is sorted. -/
theorem loadSnippet_accepted (st : Store) (c : Snippet) (h : ignoreLoad st c = false) :
    loadSnippet st c =
      (⟨sortWithCompare (st.SnippetCollection.eraseP (fun s => s.name == c.name) ++
          [{ c with _id := st.lastSnippetId + 1 }]), st.lastSnippetId + 1⟩,
        { c with _id := st.lastSnippetId + 1 }) := by
  unfold ignoreLoad at h
  unfold loadSnippet
  simp only [h, Bool.false_eq_true, if_false, _sortSnippets]
  cases hf : st.SnippetCollection.find? (fun s => s.name == c.name) with
  | none =>
    have : st.SnippetCollection.eraseP (fun s => s.name == c.name) = st.SnippetCollection :=
      List.eraseP_of_forall_not (by simpa using hf)
    simp [this]
  | some e =>
    obtain ⟨h1, h2⟩ := indexOf_find _ _ _ hf
    simp [h1, h2]

theorem loadSnippet_ignored (st : Store) (c : Snippet) (h : ignoreLoad st c = true) :
    loadSnippet st c = (st, c) := by
  unfold ignoreLoad at h
  unfold loadSnippet
  simp [h]

theorem deleteLoop_eq_filter (id : Nat) :
    ∀ (idx : Nat) (coll : List Snippet), idx ≤ coll.length →
      deleteLoop id idx coll = (coll.take idx).filter (fun s => !(s._id == id)) ++ coll.drop idx
  | 0, coll, _ => by simp [deleteLoop]
  | idx + 1, coll, h => by
    have hlt : idx < coll.length := h
    have hget : coll[idx]? = some coll[idx] := List.getElem?_eq_getElem hlt
    have htake : coll.take (idx + 1) = coll.take idx ++ [coll[idx]] := by
      rw [List.take_succ, hget]; rfl
    have hdrop : coll.drop idx = coll[idx] :: coll.drop (idx + 1) := List.drop_eq_getElem_cons hlt
    unfold deleteLoop
    rw [hget]
    simp only []
    by_cases hid : coll[idx]._id == id
    · rw [if_pos hid]
      have hlen : idx ≤ (coll.eraseIdx idx).length := by
        rw [List.length_eraseIdx]; simp [hlt]; omega
      rw [deleteLoop_eq_filter id idx _ hlen, htake, List.filter_append]
      have e1 : (coll.eraseIdx idx).take idx = coll.take idx := by
        rw [List.eraseIdx_eq_take_drop_succ, List.take_append_of_le_length (by simp; omega)]
        simp
      have e2 : (coll.eraseIdx idx).drop idx = coll.drop (idx + 1) := by
        rw [List.eraseIdx_eq_take_drop_succ]
        exact List.drop_left' (by simp; omega)
      rw [e1, e2]
      simp [hid]
    · rw [if_neg hid]
      rw [deleteLoop_eq_filter id idx coll (by omega), htake, List.filter_append, hdrop]
      simp [hid]

theorem deleteLoop_length (id : Nat) (coll : List Snippet) :
    deleteLoop id coll.length coll = coll.filter (fun s => !(s._id == id)) := by
  rw [deleteLoop_eq_filter id coll.length coll (Nat.le_refl _)]
  simp

theorem clearLoop_eq_nil : ∀ coll : List Snippet, clearLoop coll = []
  | [] => rfl
  | _ :: rest => by simp [clearLoop, clearLoop_eq_nil rest]

/-! ## Names under a load -/

theorem eraseP_name_eq_filter (n : JSString) :
    ∀ l : List Snippet, UniqueNames l →
      l.eraseP (fun s => s.name == n) = l.filter (fun s => !(s.name == n))
  | [], _ => rfl
  | x :: xs, h => by
    unfold UniqueNames at h
    rw [List.map_cons, List.nodup_cons] at h
    by_cases hx : x.name = n
    · have hp : (fun s : Snippet => s.name == n) x = true := by simp [hx]
      have e1 : (x :: xs).eraseP (fun s => s.name == n) = xs := by
        simp [List.eraseP_cons, hx]
      rw [e1]
      have hall : ∀ s ∈ xs, (fun s : Snippet => !(s.name == n)) s = true := by
        intro s hs
        have : s.name ≠ n := fun hsn => h.1 (List.mem_map.2 ⟨s, hs, by rw [hsn, hx]⟩)
        simp [this]
      rw [List.filter_cons_of_neg (by simp [hx]), List.filter_eq_self.2 hall]
    · have hp : ¬ (fun s : Snippet => s.name == n) x = true := by simp [hx]
      have e1 : (x :: xs).eraseP (fun s => s.name == n) =
          x :: xs.eraseP (fun s => s.name == n) := by
        simp [List.eraseP_cons, hx]
      rw [e1, List.filter_cons_of_pos (by simp [hx]), eraseP_name_eq_filter n xs h.2]

theorem uniqueNames_push (l : List Snippet) (c : Snippet) (h : UniqueNames l) :
    UniqueNames (l.eraseP (fun s => s.name == c.name) ++ [c]) := by
  rw [eraseP_name_eq_filter c.name l h]
  unfold UniqueNames at h ⊢
  rw [List.map_append, List.nodup_append]
  refine ⟨(h.sublist ((List.filter_sublist l).map _)), by simp, ?_⟩
  intro a ha hb
  simp only [List.map_cons, List.map_nil, List.mem_singleton] at hb
  obtain ⟨s, hs, rfl⟩ := List.mem_map.1 ha
  have := (List.mem_filter.1 hs).2
  simp [hb] at this

theorem uniqueNames_perm {l l' : List Snippet} (hp : l.Perm l') (h : UniqueNames l') :
    UniqueNames l :=
  ((hp.map _).nodup_iff).2 h

theorem loadSnippet_uniqueNames (st : Store) (c : Snippet) (h : UniqueNames st.SnippetCollection) :
    UniqueNames (loadSnippet st c).1.SnippetCollection := by
  cases hi : ignoreLoad st c with
  | true => rw [loadSnippet_ignored st c hi]; exact h
  | false =>
    rw [loadSnippet_accepted st c hi]
    exact uniqueNames_perm (sortWithCompare_perm _)
      (uniqueNames_push st.SnippetCollection { c with _id := st.lastSnippetId + 1 } h)

/-! ## Sortedness under every mutation -/

theorem step_sorted (st : Store) (op : Op) (h : SortedByName st.SnippetCollection) :
    SortedByName (step st op).SnippetCollection := by
  cases op with
  | load c =>
    show SortedByName (loadSnippet st c).1.SnippetCollection
    cases hi : ignoreLoad st c with
    | true => rw [loadSnippet_ignored st c hi]; exact h
    | false => rw [loadSnippet_accepted st c hi]; exact sortWithCompare_sorted _
  | update n =>
    simp only [step, updateSnippet]
    cases st.SnippetCollection.find? (fun s => s._id == n._id) with
    | none => exact h
    | some _ => exact sortWithCompare_sorted _
  | delete c r u =>
    simp only [step, deleteSnippet]
    by_cases hr : truthy r = true
    · simpa [hr] using h
    · by_cases hu : truthy u = true
      · simpa [hr, hu] using h
      · simp only [hr, hu, Bool.false_eq_true, if_false]
        rw [deleteLoop_length]
        exact List.Pairwise.sublist (List.filter_sublist _) h
  | clear =>
    show SortedByName (clearLoop st.SnippetCollection)
    rw [clearLoop_eq_nil]
    exact List.Pairwise.nil

theorem run_sorted : ∀ (ops : List Op) (st : Store), SortedByName st.SnippetCollection →
    SortedByName (run st ops).SnippetCollection
  | [], _, h => h
  | op :: ops, st, h => run_sorted ops (step st op) (step_sorted st op h)

/-! ## Ids -/

theorem assignFirst_ids (n : Snippet) :
    ∀ l : List Snippet, (assignFirst n l).map (·._id) = l.map (·._id)
  | [] => rfl
  | s :: rest => by
    unfold assignFirst
    by_cases h : s._id = n._id
    · simp [h, assignKeys]
    · simp [h, assignFirst_ids n rest]

theorem idsFresh_of_ids_eq {st st' : Store} (h : IdsFresh st)
    (hids : (st'.SnippetCollection.map (·._id)).Perm (st.SnippetCollection.map (·._id)))
    (hlast : st'.lastSnippetId = st.lastSnippetId) : IdsFresh st' := by
  refine ⟨hids.nodup_iff.2 h.1, ?_⟩
  intro s hs
  have : s._id ∈ st.SnippetCollection.map (·._id) := hids.subset (List.mem_map_of_mem _ hs)
  obtain ⟨t, ht, hts⟩ := List.mem_map.1 this
  have := h.2 t ht
  rw [hlast]
  have hts' : t._id = s._id := hts
  omega

theorem idsFresh_sublist {st : Store} {l : List Snippet} (h : IdsFresh st)
    (hl : l.Sublist st.SnippetCollection) : IdsFresh { st with SnippetCollection := l } :=
  ⟨h.1.sublist (hl.map _), fun s hs => h.2 s (hl.subset hs)⟩

theorem step_idsFresh (st : Store) (op : Op) (h : IdsFresh st) : IdsFresh (step st op) := by
  cases op with
  | load c =>
    show IdsFresh (loadSnippet st c).1
    cases hi : ignoreLoad st c with
    | true => rw [loadSnippet_ignored st c hi]; exact h
    | false =>
      rw [loadSnippet_accepted st c hi]
      have hsub : (st.SnippetCollection.eraseP (fun s => s.name == c.name)).Sublist
          st.SnippetCollection := List.eraseP_sublist _
      have hperm := sortWithCompare_perm
        (st.SnippetCollection.eraseP (fun s => s.name == c.name) ++
          [{ c with _id := st.lastSnippetId + 1 }])
      constructor
      · refine ((hperm.map _).nodup_iff).2 ?_
        rw [List.map_append, List.nodup_append]
        refine ⟨h.1.sublist (hsub.map _), by simp, ?_⟩
        intro a ha hb
        simp only [List.map_cons, List.map_nil, List.mem_singleton] at hb
        obtain ⟨s, hs, rfl⟩ := List.mem_map.1 ha
        have := (h.2 s (hsub.subset hs)).2
        omega
      · intro s hs
        rcases List.mem_append.1 (hperm.subset hs) with hs | hs
        · have := h.2 s (hsub.subset hs)
          simp only
          omega
        · simp only [List.mem_singleton] at hs
          subst hs
          simp
  | update n =>
    simp only [step, updateSnippet]
    cases st.SnippetCollection.find? (fun s => s._id == n._id) with
    | none => exact h
    | some _ =>
      refine idsFresh_of_ids_eq h ?_ rfl
      simp only [_sortSnippets]
      exact ((sortWithCompare_perm _).map _).trans (by rw [assignFirst_ids])
  | delete c r u =>
    simp only [step, deleteSnippet]
    by_cases hr : truthy r = true
    · simpa [hr] using h
    · by_cases hu : truthy u = true
      · simpa [hr, hu] using h
      · simp only [hr, hu, Bool.false_eq_true, if_false]
        rw [deleteLoop_length]
        exact idsFresh_sublist h (List.filter_sublist _)
  | clear =>
    show IdsFresh { st with SnippetCollection := clearLoop st.SnippetCollection }
    rw [clearLoop_eq_nil]
    exact idsFresh_sublist h (List.nil_sublist _)

theorem run_idsFresh : ∀ (ops : List Op) (st : Store), IdsFresh st → IdsFresh (run st ops)
  | [], _, h => h
  | op :: ops, st, h => run_idsFresh ops (step st op) (step_idsFresh st op h)

theorem idsFresh_initial : IdsFresh Store.initial :=
  ⟨List.nodup_nil, fun _ hs => by simp [Store.initial] at hs⟩

/-- The counter never decreases, and it moves only in a load that is not ignored. -/
theorem step_lastSnippetId (st : Store) (op : Op) :
    (step st op).lastSnippetId =
      match op with
      | .load c => if ignoreLoad st c then st.lastSnippetId else st.lastSnippetId + 1
      | _ => st.lastSnippetId := by
  cases op with
  | load c =>
    show (loadSnippet st c).1.lastSnippetId = _
    cases hi : ignoreLoad st c with
    | true => rw [loadSnippet_ignored st c hi]; simp [hi]
    | false => rw [loadSnippet_accepted st c hi]; simp [hi]
  | update n =>
    simp only [step, updateSnippet]
    cases st.SnippetCollection.find? (fun s => s._id == n._id) <;> rfl
  | delete c r u =>
    simp only [step, deleteSnippet]
    by_cases hr : truthy r = true
    · simp [hr]
    · by_cases hu : truthy u = true
      · simp [hr, hu]
      · simp [hr, hu]
  | clear => rfl

theorem run_lastSnippetId_le : ∀ (ops : List Op) (st : Store),
    st.lastSnippetId ≤ (run st ops).lastSnippetId
  | [], _ => Nat.le_refl _
  | op :: ops, st => by
    have h1 := run_lastSnippetId_le ops (step st op)
    have h2 := step_lastSnippetId st op
    show st.lastSnippetId ≤ (run (step st op) ops).lastSnippetId
    cases op with
    | load c =>
      simp only at h2
      split at h2 <;> omega
    | update n => simp only at h2; omega
    | delete c r u => simp only at h2; omega
    | clear => simp only at h2; omega

theorem assignedIds_eq_range : ∀ (ops : List Op) (st : Store),
    assignedIds st ops =
      List.range' (st.lastSnippetId + 1) ((run st ops).lastSnippetId - st.lastSnippetId)
  | [], st => by simp [assignedIds, run]
  | op :: ops, st => by
    have ih := assignedIds_eq_range ops (step st op)
    have hle := run_lastSnippetId_le ops (step st op)
    have h2 := step_lastSnippetId st op
    have hrun : run st (op :: ops) = run (step st op) ops := rfl
    rw [hrun]
    cases op with
    | load c =>
      simp only at h2
      simp only [assignedIds]
      rw [ih]
      cases hi : ignoreLoad st c with
      | true =>
        rw [hi] at h2
        simp only [if_true] at h2
        simp [h2]
      | false =>
        rw [hi] at h2
        simp only [Bool.false_eq_true, if_false] at h2
        rw [loadSnippet_accepted st c hi, h2]
        rw [h2] at hle
        simp only [Bool.false_eq_true, if_false, List.singleton_append]
        have : (run (step st (.load c)) ops).lastSnippetId - st.lastSnippetId =
            ((run (step st (.load c)) ops).lastSnippetId - (st.lastSnippetId + 1)) + 1 := by omega
        rw [this, List.range'_succ]
    | update n => simp only at h2; simp only [assignedIds]; rw [ih, h2]
    | delete c r u => simp only at h2; simp only [assignedIds]; rw [ih, h2]
    | clear => simp only at h2; simp only [assignedIds]; rw [ih, h2]

theorem run_loads_uniqueNames : ∀ (cands : List Snippet) (st : Store),
    UniqueNames st.SnippetCollection →
      UniqueNames (run st (cands.map Op.load)).SnippetCollection
  | [], _, h => h
  | c :: cands, st, h =>
    run_loads_uniqueNames cands (step st (.load c)) (loadSnippet_uniqueNames st c h)

theorem reachable_idsFresh {st : Store} (h : Reachable st) : IdsFresh st := by
  obtain ⟨ops, rfl⟩ := h
  exact run_idsFresh ops _ idsFresh_initial

theorem find_of_uniqueNames : ∀ (l : List Snippet) (e : Snippet), UniqueNames l → e ∈ l →
    l.find? (fun s => s.name == e.name) = some e
  | [], _, _, he => by simp at he
  | x :: xs, e, hu, he => by
    unfold UniqueNames at hu
    rw [List.map_cons, List.nodup_cons] at hu
    rcases List.mem_cons.1 he with rfl | he
    · simp
    · have hne : x.name ≠ e.name := fun hx => hu.1 (hx ▸ List.mem_map_of_mem _ he)
      rw [List.find?_cons_of_neg _ (by simpa using hne)]
      exact find_of_uniqueNames xs e hu.2 he

theorem ignoreLoadFor_directory (e c : Snippet) (h : e.source = some (utf16 "directory")) :
    ignoreLoadFor (some e) c = false := by
  simp [ignoreLoadFor, h]

theorem utf16_user : utf16 "user" = [117, 115, 101, 114] := by decide

theorem utf16_gist : utf16 "gist" = [103, 105, 115, 116] := by decide

theorem utf16_directory : utf16 "directory" = [100, 105, 114, 101, 99, 116, 111, 114, 121] := by
  decide

/-! ## Facts about the default directory path -/

theorem utf16_slash : utf16 "/" = [47] := by decide

theorem utf16_slash_slash : utf16 "//" = [47, 47] := by decide

theorem replaceBackslashes_no_backslash (s : JSString) : 92 ∉ replaceBackslashes s := by
  unfold replaceBackslashes
  intro h
  obtain ⟨c, _, hc⟩ := List.mem_map.1 h
  by_cases h92 : c = 92
  · simp [h92] at hc
  · simp [h92] at hc

theorem sliceLast_append_singleton (s : JSString) (c : Nat) : sliceLast (s ++ [c]) = [c] := by
  unfold sliceLast
  have : (s ++ [c]).length - 1 = s.length := by simp
  rw [this, List.drop_left]

theorem fixTrailingSlash_cases (d : JSString) :
    (fixTrailingSlash d = d ++ [47] ∧ ¬ [47] <:+ d) ∨ (fixTrailingSlash d = d ∧ [47] <:+ d) := by
  unfold fixTrailingSlash
  rw [utf16_slash]
  rcases List.eq_nil_or_concat d with rfl | ⟨init, c, rfl⟩
  · left
    simp [sliceLast]
  · rw [List.concat_eq_append, sliceLast_append_singleton]
    by_cases hc : c = 47
    · right
      subst hc
      simp
    · left
      have : ¬ [47] <:+ init ++ [c] := by
        rintro ⟨t, ht⟩
        have := List.append_inj_right' ht rfl
        simp at this
        exact hc this.symm
      simp [hc, this]

theorem suffix_two_of_append (d : JSString) (h : [47, 47] <:+ d ++ [47]) : [47] <:+ d := by
  obtain ⟨t, ht⟩ := h
  have h1 : (t ++ [47]) ++ [47] = d ++ [47] := by simpa using ht
  have := List.append_inj_left' h1 rfl
  exact ⟨t, this⟩

theorem suffix_one_of_two (d : JSString) (h : [47, 47] <:+ d) : [47] <:+ d := by
  obtain ⟨t, ht⟩ := h
  exact ⟨t ++ [47], by simpa using ht⟩

theorem fixTrailingSlash_ends_slash (d : JSString) : [47] <:+ fixTrailingSlash d := by
  rcases fixTrailingSlash_cases d with ⟨h, _⟩ | ⟨h, hs⟩
  · rw [h]; exact List.suffix_append _ _
  · rw [h]; exact hs

theorem fixTrailingSlash_double (d : JSString) :
    [47, 47] <:+ fixTrailingSlash d ↔ [47, 47] <:+ d := by
  rcases fixTrailingSlash_cases d with ⟨h, hn⟩ | ⟨h, _⟩
  · rw [h]
    constructor
    · intro h2; exact absurd (suffix_two_of_append d h2) hn
    · intro h2; exact absurd (suffix_one_of_two d h2) hn
  · rw [h]

theorem fixTrailingSlash_no_backslash (d : JSString) (h : 92 ∉ d) : 92 ∉ fixTrailingSlash d := by
  rcases fixTrailingSlash_cases d with ⟨h1, _⟩ | ⟨h1, _⟩
  · rw [h1]; simp [h]
  · rw [h1]; exact h

theorem default_not_double_slash (appSupport : JSString) :
    ¬ [47, 47] <:+ replaceBackslashes (getDefaultSnippetDirectory appSupport) := by
  have hu : utf16 "/snippets/" = [47, 115, 110, 105, 112, 112, 101, 116] ++ [115, 47] := by decide
  unfold getDefaultSnippetDirectory replaceBackslashes
  rw [hu, List.map_append, List.map_append]
  rintro ⟨t, ht⟩
  have h1 : t ++ [47, 47] = (List.map (fun c => if c = 92 then 47 else c) appSupport ++
      List.map (fun c => if c = 92 then 47 else c) [47, 115, 110, 105, 112, 112, 101, 116]) ++
      [115, 47] := by
    rw [ht, List.append_assoc]; rfl
  have := List.append_inj_right' h1 rfl
  simp at this

theorem default_path_no_backslash (p appSupport : JSString) :
    92 ∉ defaultDirectoryPath (some p) appSupport :=
  fixTrailingSlash_no_backslash _ (replaceBackslashes_no_backslash _)

theorem default_path_ends_slash (p appSupport : JSString) :
    utf16 "/" <:+ defaultDirectoryPath (some p) appSupport := by
  rw [utf16_slash]
  exact fixTrailingSlash_ends_slash _

theorem default_path_double_slash (p appSupport : JSString) :
    utf16 "//" <:+ defaultDirectoryPath (some p) appSupport ↔
      utf16 "//" <:+ replaceBackslashes p := by
  rw [utf16_slash_slash]
  unfold defaultDirectoryPath
  simp only []
  rw [fixTrailingSlash_double]
  cases p with
  | nil =>
    have h1 : truthy (some ([] : JSString)) = false := rfl
    simp only [h1, Bool.not_false, if_true]
    constructor
    · intro h; exact absurd h (default_not_double_slash appSupport)
    · intro h
      obtain ⟨t, ht⟩ := h
      simp [replaceBackslashes] at ht
  | cons c cs =>
    have h1 : truthy (some (c :: cs)) = true := rfl
    simp [h1]

theorem fixTrailingSlash_of_suffix (d : JSString) (h : [47] <:+ d) : fixTrailingSlash d = d := by
  rcases fixTrailingSlash_cases d with ⟨_, hn⟩ | ⟨h1, _⟩
  · exact absurd h hn
  · exact h1

theorem fixTrailingSlash_of_not_suffix (d : JSString) (h : ¬ [47] <:+ d) :
    fixTrailingSlash d = d ++ [47] := by
  rcases fixTrailingSlash_cases d with ⟨h1, _⟩ | ⟨_, hs⟩
  · exact h1
  · exact absurd hs h

theorem suffix_singleton_concat (init : List Nat) (c a : Nat) :
    [a] <:+ init ++ [c] ↔ c = a := by
  constructor
  · rintro ⟨t, ht⟩
    have := List.append_inj_right' ht rfl
    simpa using this.symm
  · rintro rfl
    exact List.suffix_append _ _

/-- The path handed to `FileSystem.resolve`, spelled out: the configured path with every
backslash turned into a slash, and a slash added when it ends in neither; for the empty
preference the computed default, whose last character is a slash. -/
theorem defaultDirectoryPath_spelled_out (p appSupport : JSString) :
    defaultDirectoryPath (some p) appSupport =
      if p = [] then
        appSupport.map (fun c => if c = 92 then 47 else c) ++ utf16 "/snippets/"
      else
        p.map (fun c => if c = 92 then 47 else c) ++
          (if p.getLast? = some 47 ∨ p.getLast? = some 92 then [] else utf16 "/") := by
  rcases List.eq_nil_or_concat p with rfl | ⟨init, c, rfl⟩
  · have h1 : truthy (some ([] : JSString)) = false := rfl
    have hu : utf16 "/snippets/" = [47, 115, 110, 105, 112, 112, 101, 116, 115] ++ [47] := by
      decide
    have hd : replaceBackslashes (getDefaultSnippetDirectory appSupport) =
        appSupport.map (fun c => if c = 92 then 47 else c) ++ utf16 "/snippets/" := by
      unfold replaceBackslashes getDefaultSnippetDirectory
      rw [List.map_append]
      congr 1
    unfold defaultDirectoryPath
    simp only [h1, Bool.not_false, if_true]
    rw [hd, fixTrailingSlash_of_suffix]
    rw [hu, ← List.append_assoc]
    exact List.suffix_append _ _
  · rw [List.concat_eq_append]
    have h1 : truthy (some (init ++ [c])) = true := by
      cases init <;> rfl
    have hne : init ++ [c] ≠ [] := by simp
    have hlast : (init ++ [c]).getLast? = some c := by simp
    have hr : replaceBackslashes (init ++ [c]) =
        init.map (fun c => if c = 92 then 47 else c) ++ [if c = 92 then 47 else c] := by
      simp [replaceBackslashes]
    unfold defaultDirectoryPath
    simp only [h1, Bool.not_true, Bool.false_eq_true, if_false, Option.getD_some, hne, hlast,
      Option.some.injEq, utf16_slash]
    by_cases hc : c = 47 ∨ c = 92
    · have hs : [47] <:+ replaceBackslashes (init ++ [c]) := by
        rw [hr, suffix_singleton_concat]
        rcases hc with rfl | rfl <;> rfl
      rw [if_pos hc, List.append_nil, fixTrailingSlash_of_suffix _ hs]
      rfl
    · have hs : ¬ [47] <:+ replaceBackslashes (init ++ [c]) := by
        rw [hr, suffix_singleton_concat]
        intro h
        apply hc
        by_cases h92 : c = 92
        · exact Or.inr h92
        · rw [if_neg h92] at h
          exact Or.inl h
      rw [if_neg hc, fixTrailingSlash_of_not_suffix _ hs]
      rfl

/-! ## Facts about escaping, parsing and matching -/

theorem escapeRegExp_cons (c : Nat) (q : JSString) :
    escapeRegExp (c :: q) =
      (if c ∈ escapedCharacters then [92, c] else [c]) ++ escapeRegExp q := by
  simp [escapeRegExp]

theorem length_le_escapeRegExp : ∀ q : JSString, q.length ≤ (escapeRegExp q).length
  | [] => Nat.le_refl _
  | c :: q => by
    have ih := length_le_escapeRegExp q
    rw [escapeRegExp_cons]
    by_cases h : c ∈ escapedCharacters
    · simp only [h, if_true, List.length_append, List.length_cons, List.length_nil]; omega
    · simp only [h, if_false, List.length_append, List.length_cons, List.length_nil]; omega

/-- An escaped string never starts with a quantifier. -/
theorem parseQuantifier_escapeRegExp (t : Regex) :
    ∀ q : JSString, parseQuantifier t (escapeRegExp q) = some (t, escapeRegExp q)
  | [] => rfl
  | c :: q => by
    rw [escapeRegExp_cons]
    by_cases h : c ∈ escapedCharacters
    · simp only [h, if_true]
      rfl
    · simp only [h, if_false]
      simp only [escapedCharacters, List.mem_cons, List.mem_singleton, not_or, List.mem_nil_iff,
        not_false_eq_true, and_true] at h
      simp [parseQuantifier, h]

/-- A character that `escapeRegExp` leaves alone is parsed as itself. -/
theorem parseAtom_plain (c : Nat) (rest : List Nat) (h : c ∉ escapedCharacters) :
    parseAtom (c :: rest) = some (.char c, true, rest) := by
  simp only [escapedCharacters, List.mem_cons, List.mem_singleton, not_or, List.mem_nil_iff,
    not_false_eq_true, and_true] at h
  simp [parseAtom, h]

/-- A backslash before one of the escaped characters is an identity escape. -/
theorem parseAtom_escaped (c : Nat) (rest : List Nat) (h : c ∈ escapedCharacters) :
    parseAtom (92 :: c :: rest) = some (.char c, true, rest) := by
  simp only [escapedCharacters, List.mem_cons, List.mem_singleton, List.mem_nil_iff,
    or_false] at h
  rcases h with rfl | rfl | rfl | rfl | rfl | rfl | rfl | rfl | rfl | rfl | rfl | rfl | rfl |
    rfl | rfl <;> rfl

theorem parseDisjunction_escapeRegExp :
    ∀ (q : JSString) (fuel : Nat), q.length < fuel →
      parseDisjunction fuel (escapeRegExp q) = some (literal q, none, [])
  | [], fuel + 1, _ => rfl
  | c :: q, fuel + 1, hf => by
    have ih := parseDisjunction_escapeRegExp q fuel (by simpa using hf)
    rw [escapeRegExp_cons]
    by_cases h : c ∈ escapedCharacters
    · simp only [h, if_true, List.cons_append, List.nil_append]
      unfold parseDisjunction
      simp [parseAtom_escaped c _ h, parseTermTail, parseQuantifier_escapeRegExp, ih, literal]
    · simp only [h, if_false, List.cons_append, List.nil_append]
      have h' := h
      simp only [escapedCharacters, List.mem_cons, List.mem_singleton, not_or, List.mem_nil_iff,
        not_false_eq_true, and_true] at h'
      unfold parseDisjunction
      simp [parseAtom_plain c _ h, parseTermTail, parseQuantifier_escapeRegExp, ih, literal, h']

/-- An escaped string always compiles, to the pattern that matches its characters one
after the other. -/
theorem parsePattern_escapeRegExp (q : JSString) :
    parsePattern (escapeRegExp q) = some (literal q) := by
  unfold parsePattern
  rw [parseDisjunction_escapeRegExp q _ (Nat.lt_succ_of_le (length_le_escapeRegExp q))]
  rfl

theorem matchEnds_literal (canon : Nat → Nat) (input : JSString) :
    ∀ (q : JSString) (i : Nat),
      matchEnds canon input (literal q) i =
        if q.map canon <+: (input.drop i).map canon then [i + q.length] else []
  | [], i => by simp [literal, matchEnds]
  | c :: q, i => by
    have ih := matchEnds_literal canon input q (i + 1)
    simp only [literal, matchEnds]
    cases hget : input[i]? with
    | none =>
      have hdrop : input.drop i = [] := by
        rw [List.drop_eq_nil_iff]
        exact List.getElem?_eq_none_iff.1 hget
      simp [hdrop]
    | some d =>
      have hlt : i < input.length := by
        by_contra hcon
        rw [List.getElem?_eq_none_iff.2 (by omega)] at hget
        cases hget
      have hd : input[i] = d := by
        rw [List.getElem?_eq_getElem hlt] at hget
        exact Option.some.inj hget
      have hdrop : input.drop i = d :: input.drop (i + 1) := by
        rw [← hd]; exact List.drop_eq_getElem_cons hlt
      rw [hdrop]
      by_cases hc : canon d = canon c
      · simp only [hc, if_true, List.flatMap_cons, List.flatMap_nil, List.append_nil, ih,
          List.map_cons, List.cons_prefix_cons, true_and, List.length_cons]
        split <;> simp [Nat.add_assoc, Nat.add_comm 1]
      · have hc' : ¬ canon c = canon d := fun h => hc h.symm
        simp [hc, hc']

theorem regExpTest_literal (canon : Nat → Nat) (q input : JSString) :
    regExpTest canon (literal q) input = true ↔ q.map canon <:+: input.map canon := by
  unfold regExpTest
  rw [List.any_eq_true]
  constructor
  · rintro ⟨i, _, hi⟩
    rw [matchEnds_literal] at hi
    by_cases hp : q.map canon <+: (input.drop i).map canon
    · obtain ⟨t, ht⟩ := hp
      refine ⟨(input.take i).map canon, t, ?_⟩
      rw [List.append_assoc, ht, ← List.map_append, List.take_append_drop]
    · rw [if_neg hp] at hi
      simp at hi
  · rintro ⟨s, t, hst⟩
    have hlen : s.length ≤ input.length := by
      have := congrArg List.length hst
      simp only [List.length_append, List.length_map] at this
      omega
    refine ⟨s.length, List.mem_range.2 (by omega), ?_⟩
    rw [matchEnds_literal]
    have hp : q.map canon <+: (input.drop s.length).map canon := by
      refine ⟨t, ?_⟩
      rw [List.map_drop, ← hst, List.append_assoc]
      exact (List.drop_left _ _).symm
    rw [if_pos hp]
    simp

/-! ## Case folding on ASCII -/

theorem canonicalize_ascii (toUpperCase : Nat → JSString)
    (hup : ∀ c, c < 128 → toUpperCase c = asciiToUpperCase c) (c : Nat) (hc : c < 128) :
    canonicalize toUpperCase c = if 97 ≤ c ∧ c ≤ 122 then c - 32 else c := by
  unfold canonicalize
  rw [hup c hc]
  unfold asciiToUpperCase
  by_cases h : 97 ≤ c ∧ c ≤ 122
  · simp only [h, and_self, if_true]
    have : ¬ (128 ≤ c ∧ c - 32 < 128) := by omega
    rw [if_neg this]
  · simp only [h, if_false]
    have : ¬ (128 ≤ c ∧ c < 128) := by omega
    rw [if_neg this]

theorem canonicalize_non_ascii (toUpperCase : Nat → JSString) (c : Nat) (hc : 128 ≤ c) :
    128 ≤ canonicalize toUpperCase c := by
  unfold canonicalize
  split
  · rename_i cu _
    by_cases h : 128 ≤ c ∧ cu < 128
    · rw [if_pos h]; exact hc
    · rw [if_neg h]; omega
  · exact hc

/-- An ASCII code unit has the canonical form of another code unit exactly when the two
are the same letter in either case, or the same character. -/
theorem canonicalize_eq_iff (toUpperCase : Nat → JSString)
    (hup : ∀ c, c < 128 → toUpperCase c = asciiToUpperCase c) (a b : Nat) (ha : a < 128) :
    canonicalize toUpperCase a = canonicalize toUpperCase b ↔
      asciiLowerCase a = asciiLowerCase b := by
  rw [canonicalize_ascii toUpperCase hup a ha]
  by_cases hb : b < 128
  · rw [canonicalize_ascii toUpperCase hup b hb]
    unfold asciiLowerCase
    split <;> split <;> split <;> split <;> omega
  · have h1 := canonicalize_non_ascii toUpperCase b (by omega)
    unfold asciiLowerCase
    split <;> split <;> split <;> omega

theorem prefix_map_congr (f g : Nat → Nat) :
    ∀ (q l : List Nat), (∀ a ∈ q, ∀ b, f a = f b ↔ g a = g b) →
      (q.map f <+: l.map f ↔ q.map g <+: l.map g)
  | [], _, _ => by simp
  | _ :: _, [], _ => by simp
  | a :: q, b :: l, h => by
    have ih := prefix_map_congr f g q l (fun x hx => h x (List.mem_cons_of_mem _ hx))
    simp only [List.map_cons, List.cons_prefix_cons]
    rw [h a (List.mem_cons_self _ _) b, ih]

theorem infix_iff_prefix_drop (a l : List Nat) : a <:+: l ↔ ∃ i, a <+: l.drop i := by
  constructor
  · rintro ⟨s, t, rfl⟩
    refine ⟨s.length, t, ?_⟩
    rw [List.append_assoc, List.drop_left]
  · rintro ⟨i, t, ht⟩
    refine ⟨l.take i, t, ?_⟩
    rw [List.append_assoc, ht, List.take_append_drop]

theorem infix_map_congr (f g : Nat → Nat) (q l : List Nat)
    (h : ∀ a ∈ q, ∀ b, f a = f b ↔ g a = g b) :
    q.map f <:+: l.map f ↔ q.map g <:+: l.map g := by
  rw [infix_iff_prefix_drop, infix_iff_prefix_drop]
  constructor
  · rintro ⟨i, hi⟩
    refine ⟨i, ?_⟩
    rw [← List.map_drop] at hi ⊢
    exact (prefix_map_congr f g q _ h).1 hi
  · rintro ⟨i, hi⟩
    refine ⟨i, ?_⟩
    rw [← List.map_drop] at hi ⊢
    exact (prefix_map_congr f g q _ h).2 hi

/-! ## Facts about the directory registration -/

theorem register_extends (dirs : List DirectoryRegistration) (d : Entry) :
    dirs <+: _registerSnippetDirectory dirs d := by
  unfold _registerSnippetDirectory
  split
  · exact List.prefix_refl _
  · exact List.prefix_append _ _

theorem register_nodup (dirs : List DirectoryRegistration) (d : Entry)
    (h : (dirs.map (·.fullPath)).Nodup) :
    ((_registerSnippetDirectory dirs d).map (·.fullPath)).Nodup := by
  unfold _registerSnippetDirectory
  split
  · exact h
  · rename_i hnone
    rw [List.map_append, List.nodup_append]
    refine ⟨h, by simp, ?_⟩
    intro a ha hb
    simp only [List.map_cons, List.map_nil, List.mem_singleton] at hb
    obtain ⟨e, he, rfl⟩ := List.mem_map.1 ha
    have := List.find?_eq_none.1 hnone e he
    simp [hb] at this

theorem register_mem (dirs : List DirectoryRegistration) (d : Entry) :
    d.fullPath ∈ (_registerSnippetDirectory dirs d).map (·.fullPath) := by
  unfold _registerSnippetDirectory
  split
  · rename_i e hsome
    have h1 := List.mem_of_find?_eq_some hsome
    have h2 := List.find?_some hsome
    exact List.mem_map.2 ⟨e, h1, by simpa using h2⟩
  · simp

theorem register_all_extends : ∀ (contents : List Entry) (dirs : List DirectoryRegistration),
    dirs <+: contents.foldl _registerSnippetDirectory dirs
  | [], _ => List.prefix_refl _
  | d :: ds, dirs => (register_extends dirs d).trans (register_all_extends ds _)

theorem register_all_nodup : ∀ (contents : List Entry) (dirs : List DirectoryRegistration),
    (dirs.map (·.fullPath)).Nodup →
      ((contents.foldl _registerSnippetDirectory dirs).map (·.fullPath)).Nodup
  | [], _, h => h
  | d :: ds, dirs, h => register_all_nodup ds _ (register_nodup dirs d h)

/-- Every entry of the listing, directory or not, is registered afterwards. -/
theorem register_all_mem : ∀ (contents : List Entry) (dirs : List DirectoryRegistration),
    ∀ d ∈ contents, d.fullPath ∈ (contents.foldl _registerSnippetDirectory dirs).map (·.fullPath)
  | [], _, _, hd => by simp at hd
  | c :: cs, dirs, d, hd => by
    rcases List.mem_cons.1 hd with rfl | hd
    · exact ((register_all_extends cs _).map _).subset (register_mem dirs d)
    · exact register_all_mem cs _ d hd

/-! ## The claims -/

/-- C1: starting from the empty collection, after every finite sequence of `loadSnippet`
calls, with candidates of any name and any source, no two records of the collection
returned by `getAll` have the same name. -/
theorem load_sequence_unique_names (cands : List Snippet) :
    UniqueNames (getAll (run Store.initial (cands.map Op.load))) :=
  run_loads_uniqueNames cands Store.initial List.nodup_nil

/-- C2: when the record found under the candidate's name has source "user" and the
candidate's source is not "user", or it has source "gist" and the candidate's source is
neither "user" nor "gist", `loadSnippet` leaves the store (collection and id counter) and
the candidate as they were; when it has source "directory" the load is never ignored: the
candidate enters the collection with the next id, whatever its source. -/
theorem load_precedence (st : Store) (c e : Snippet)
    (hfind : st.SnippetCollection.find? (fun s => s.name == c.name) = some e) :
    (e.source = some (utf16 "user") → c.source ≠ some (utf16 "user") →
        loadSnippet st c = (st, c)) ∧
      (e.source = some (utf16 "gist") → c.source ≠ some (utf16 "user") →
        c.source ≠ some (utf16 "gist") → loadSnippet st c = (st, c)) ∧
      (e.source = some (utf16 "directory") →
        ignoreLoad st c = false ∧
        { c with _id := st.lastSnippetId + 1 } ∈ getAll (loadSnippet st c).1 ∧
        (loadSnippet st c).1.lastSnippetId = st.lastSnippetId + 1) := by
  refine ⟨?_, ?_, ?_⟩
  · intro he hc
    apply loadSnippet_ignored
    have h1 : truthy (some (utf16 "user")) = true := by decide
    have h2 : utf16 "user" ≠ utf16 "directory" := by decide
    simp [ignoreLoad, hfind, ignoreLoadFor, he, hc, h1, h2]
  · intro he hc1 hc2
    apply loadSnippet_ignored
    have h1 : truthy (some (utf16 "gist")) = true := by decide
    have h2 : utf16 "gist" ≠ utf16 "directory" := by decide
    have h3 : utf16 "gist" ≠ utf16 "user" := by decide
    simp [ignoreLoad, hfind, ignoreLoadFor, he, hc1, hc2, h1, h2, h3]
  · intro he
    have hi : ignoreLoad st c = false := by
      rw [ignoreLoad, hfind]
      exact ignoreLoadFor_directory e c he
    refine ⟨hi, ?_, ?_⟩
    · rw [loadSnippet_accepted st c hi]
      exact (sortWithCompare_perm _).mem_iff.2 (by simp)
    · rw [loadSnippet_accepted st c hi]

/-- Witness for C2: the store holding one "user" record named "a", and a "directory"
candidate of the same name. -/
theorem load_precedence_witness :
    loadSnippet ⟨[⟨1, utf16 "a", [], some (utf16 "user"), none⟩], 1⟩
        ⟨0, utf16 "a", utf16 "x", some (utf16 "directory"), none⟩ =
      (⟨[⟨1, utf16 "a", [], some (utf16 "user"), none⟩], 1⟩,
        ⟨0, utf16 "a", utf16 "x", some (utf16 "directory"), none⟩) :=
  (load_precedence ⟨[⟨1, utf16 "a", [], some (utf16 "user"), none⟩], 1⟩
    ⟨0, utf16 "a", utf16 "x", some (utf16 "directory"), none⟩
    ⟨1, utf16 "a", [], some (utf16 "user"), none⟩ (by decide)).1 rfl (by decide)

/-- C4: starting from the empty collection, after every finite sequence of `loadSnippet`,
`updateSnippet`, `deleteSnippet` (the file removal succeeding or failing) and `clearAll`,
the collection returned by `getAll` is ascending by name under the code unit order. -/
theorem mutations_keep_sorted (ops : List Op) :
    SortedByName (getAll (run Store.initial ops)) :=
  run_sorted ops Store.initial List.Pairwise.nil

/-- C6: when resolving and unlinking the file both succeed, `deleteSnippet` resolves and
leaves the collection with exactly the records whose `_id` differs from the argument's,
unchanged and in the same order, and leaves the id counter alone; if no record has that
`_id` the store is unchanged. -/
theorem delete_removes_matching_id (st : Store) (snippet : Snippet) :
    deleteSnippet st snippet none none =
        ({ st with SnippetCollection :=
            st.SnippetCollection.filter (fun s => !(s._id == snippet._id)) }, .resolved) ∧
      ((∀ s ∈ st.SnippetCollection, s._id ≠ snippet._id) →
        (deleteSnippet st snippet none none).1 = st) := by
  have h : deleteSnippet st snippet none none =
      ({ st with SnippetCollection :=
          st.SnippetCollection.filter (fun s => !(s._id == snippet._id)) }, .resolved) := by
    simp [deleteSnippet, truthy, deleteLoop_length]
  refine ⟨h, fun hne => ?_⟩
  rw [h]
  have : st.SnippetCollection.filter (fun s => !(s._id == snippet._id)) = st.SnippetCollection :=
    List.filter_eq_self.2 (fun s hs => by simpa using hne s hs)
  simp [this]

/-- Witness for C6: deleting an id that no record carries. -/
theorem delete_removes_matching_id_witness :
    (deleteSnippet ⟨[⟨1, utf16 "a", [], none, none⟩], 1⟩ ⟨7, [], [], none, none⟩ none none).1 =
      ⟨[⟨1, utf16 "a", [], none, none⟩], 1⟩ :=
  (delete_removes_matching_id ⟨[⟨1, utf16 "a", [], none, none⟩], 1⟩
    ⟨7, [], [], none, none⟩).2 (by decide)

/-- C7: starting from the empty collection with the counter at 0, after every finite
sequence of mutations the loads that were not ignored received the ids 1, 2, 3, ... in
call order (the k-th one received k), the ids of the records in the collection are
pairwise distinct and were all given by such a load, and no id was given twice. -/
theorem ids_assigned_in_sequence (ops : List Op) :
    assignedIds Store.initial ops = List.range' 1 (assignedIds Store.initial ops).length ∧
      (∀ k, k < (assignedIds Store.initial ops).length →
        (assignedIds Store.initial ops)[k]? = some (k + 1)) ∧
      ((getAll (run Store.initial ops)).map (·._id)).Nodup ∧
      (∀ s ∈ getAll (run Store.initial ops), s._id ∈ assignedIds Store.initial ops) ∧
      (assignedIds Store.initial ops).Nodup := by
  have h := assignedIds_eq_range ops Store.initial
  have hf := run_idsFresh ops Store.initial idsFresh_initial
  have h0 : Store.initial.lastSnippetId = 0 := rfl
  rw [h0] at h
  simp only [Nat.sub_zero, Nat.zero_add] at h
  have hlen : (assignedIds Store.initial ops).length =
      (run Store.initial ops).lastSnippetId := by
    rw [h, List.length_range']
  refine ⟨?_, ?_, hf.1, ?_, ?_⟩
  · rw [hlen]; exact h
  · intro k hk
    rw [hlen] at hk
    rw [show assignedIds Store.initial ops = _ from h, List.getElem?_range' _ _ hk]
    simp [Nat.add_comm]
  · intro s hs
    have := hf.2 s hs
    rw [show assignedIds Store.initial ops = _ from h, List.mem_range']
    exact ⟨s._id - 1, by omega, by omega⟩
  · rw [show assignedIds Store.initial ops = _ from h]
    exact List.nodup_range' _ _

/-- C8 fails on the code: after loading "a" and "b", `updateSnippet` with the id of "b"
and the name "a" leaves two records named "a" in the collection. -/
theorem update_duplicates_name :
    (getAll (run Store.initial
      [.load ⟨0, utf16 "a", [], some (utf16 "directory"), none⟩,
       .load ⟨0, utf16 "b", [], some (utf16 "directory"), none⟩,
       .update ⟨2, utf16 "a", [], some (utf16 "directory"), none⟩])).map (·.name) =
      [utf16 "a", utf16 "a"] ∧
    ¬ UniqueNames (getAll (run Store.initial
      [.load ⟨0, utf16 "a", [], some (utf16 "directory"), none⟩,
       .load ⟨0, utf16 "b", [], some (utf16 "directory"), none⟩,
       .update ⟨2, utf16 "a", [], some (utf16 "directory"), none⟩])) := by
  have h : (getAll (run Store.initial
      [.load ⟨0, utf16 "a", [], some (utf16 "directory"), none⟩,
       .load ⟨0, utf16 "b", [], some (utf16 "directory"), none⟩,
       .update ⟨2, utf16 "a", [], some (utf16 "directory"), none⟩])).map (·.name) =
      [utf16 "a", utf16 "a"] := by decide
  refine ⟨h, ?_⟩
  unfold UniqueNames
  rw [h]
  decide

/-- C3: in a store the module can reach whose names are unique, a load that precedence
accepts writes the previous counter plus one into the candidate and into the counter,
leaves in the collection exactly the previous records whose name differs from the
candidate's, unchanged, plus the candidate, and the new id is strictly greater than the
id of the record it replaced; loading the same "directory" candidate a second time leaves
exactly one record under its name, with an id greater than the one of the first load. -/
theorem accepted_load_replaces (st : Store) (c : Snippet) (hreach : Reachable st)
    (hu : UniqueNames st.SnippetCollection) (hacc : ignoreLoad st c = false) :
    (loadSnippet st c).2 = { c with _id := st.lastSnippetId + 1 } ∧
      (loadSnippet st c).1.lastSnippetId = st.lastSnippetId + 1 ∧
      (getAll (loadSnippet st c).1).Perm
        (st.SnippetCollection.filter (fun s => !(s.name == c.name)) ++
          [{ c with _id := st.lastSnippetId + 1 }]) ∧
      (∀ e ∈ st.SnippetCollection, e.name = c.name → e._id < (loadSnippet st c).2._id) ∧
      (c.source = some (utf16 "directory") →
        (getAll (loadSnippet (loadSnippet st c).1 c).1).filter (fun s => s.name == c.name) =
            [(loadSnippet (loadSnippet st c).1 c).2] ∧
          (loadSnippet st c).2._id < (loadSnippet (loadSnippet st c).1 c).2._id) := by
  have hfresh := reachable_idsFresh hreach
  have hu1 := loadSnippet_uniqueNames st c hu
  have hload := loadSnippet_accepted st c hacc
  have hmem : (loadSnippet st c).2 ∈ (loadSnippet st c).1.SnippetCollection := by
    rw [hload]
    exact (sortWithCompare_perm _).mem_iff.2 (by simp)
  refine ⟨by rw [hload], by rw [hload], ?_, ?_, ?_⟩
  · rw [hload, ← eraseP_name_eq_filter c.name _ hu]
    exact sortWithCompare_perm _
  · intro e he _
    have := (hfresh.2 e he).2
    rw [hload]
    show e._id < st.lastSnippetId + 1
    omega
  · intro hsrc
    have hname : (loadSnippet st c).2.name = c.name := by rw [hload]
    have hfind := find_of_uniqueNames _ _ hu1 hmem
    rw [hname] at hfind
    have hacc2 : ignoreLoad (loadSnippet st c).1 c = false := by
      rw [ignoreLoad, hfind]
      exact ignoreLoadFor_directory _ c (by rw [hload]; exact hsrc)
    have hload2 := loadSnippet_accepted (loadSnippet st c).1 c hacc2
    rw [hload2]
    constructor
    · rw [eraseP_name_eq_filter c.name _ hu1]
      have hp := (sortWithCompare_perm
        ((loadSnippet st c).1.SnippetCollection.filter (fun s => !(s.name == c.name)) ++
          [{ c with _id := (loadSnippet st c).1.lastSnippetId + 1 }])).filter
        (fun s => s.name == c.name)
      rw [List.filter_append, List.filter_filter] at hp
      simp only [getAll]
      apply List.perm_singleton.1
      refine hp.trans ?_
      simp
    · rw [hload]
      show st.lastSnippetId + 1 < st.lastSnippetId + 1 + 1
      omega

/-- Witness for C3: loading "foo" from a directory into the empty store. -/
theorem accepted_load_replaces_witness :
    (getAll (loadSnippet (loadSnippet Store.initial
        ⟨0, utf16 "foo", [], some (utf16 "directory"), none⟩).1
        ⟨0, utf16 "foo", [], some (utf16 "directory"), none⟩).1).filter
          (fun s => s.name == utf16 "foo") =
      [(loadSnippet (loadSnippet Store.initial
        ⟨0, utf16 "foo", [], some (utf16 "directory"), none⟩).1
        ⟨0, utf16 "foo", [], some (utf16 "directory"), none⟩).2] ∧
    (loadSnippet Store.initial ⟨0, utf16 "foo", [], some (utf16 "directory"), none⟩).2._id <
      (loadSnippet (loadSnippet Store.initial
        ⟨0, utf16 "foo", [], some (utf16 "directory"), none⟩).1
        ⟨0, utf16 "foo", [], some (utf16 "directory"), none⟩).2._id :=
  (accepted_load_replaces Store.initial ⟨0, utf16 "foo", [], some (utf16 "directory"), none⟩
    ⟨[], rfl⟩ List.nodup_nil rfl).2.2.2.2 rfl

/-- C9 fails on the code: for the configured path "a//" the path that is resolved and
persisted is "a//", which ends with two slashes. -/
theorem default_directory_keeps_double_slash :
    (ensureDefaultSnippetDirectory (some (utf16 "a//")) (utf16 "/support") none true none).path =
        utf16 "a//" ∧
      (ensureDefaultSnippetDirectory (some (utf16 "a//")) (utf16 "/support") none true none).persisted =
        utf16 "a//" ∧
      utf16 "//" <:+
        (ensureDefaultSnippetDirectory (some (utf16 "a//")) (utf16 "/support") none true none).path := by
  refine ⟨by decide, by decide, ?_⟩
  exact ⟨utf16 "a", by decide⟩

/-- C9 as amended: for every configured path string the path that is resolved is the
configured path with each backslash replaced by a slash and every other character kept,
followed by one more slash exactly when the configured path ends in neither a slash nor a
backslash (for the empty string: the computed default, its backslashes replaced); so it
contains no backslash, ends with a slash, and ends with two slashes exactly when the
configured path, its backslashes replaced by slashes, already does. It is the value
persisted when the promise resolves; when the promise rejects the computed default is
persisted. -/
theorem default_directory_normalised (p appSupport : JSString)
    (resolveErr : Option JSString) (isDirectory : Bool) (makedirErr : Option JSString) :
    (ensureDefaultSnippetDirectory (some p) appSupport resolveErr isDirectory makedirErr).path =
        (if p = [] then
          appSupport.map (fun c => if c = 92 then 47 else c) ++ utf16 "/snippets/"
        else
          p.map (fun c => if c = 92 then 47 else c) ++
            (if p.getLast? = some 47 ∨ p.getLast? = some 92 then [] else utf16 "/")) ∧
      92 ∉ (ensureDefaultSnippetDirectory (some p) appSupport resolveErr isDirectory makedirErr).path ∧
      utf16 "/" <:+
        (ensureDefaultSnippetDirectory (some p) appSupport resolveErr isDirectory makedirErr).path ∧
      (utf16 "//" <:+
          (ensureDefaultSnippetDirectory (some p) appSupport resolveErr isDirectory makedirErr).path ↔
        utf16 "//" <:+ p.map (fun c => if c = 92 then 47 else c)) ∧
      ((ensureDefaultSnippetDirectory (some p) appSupport resolveErr isDirectory makedirErr).settled =
          .resolved →
        (ensureDefaultSnippetDirectory (some p) appSupport resolveErr isDirectory makedirErr).persisted =
          (ensureDefaultSnippetDirectory (some p) appSupport resolveErr isDirectory makedirErr).path) ∧
      ((ensureDefaultSnippetDirectory (some p) appSupport resolveErr isDirectory makedirErr).settled =
          .rejected →
        (ensureDefaultSnippetDirectory (some p) appSupport resolveErr isDirectory makedirErr).persisted =
          appSupport ++ utf16 "/snippets/") := by
  have hpath : (ensureDefaultSnippetDirectory (some p) appSupport resolveErr isDirectory
      makedirErr).path = defaultDirectoryPath (some p) appSupport := by
    unfold ensureDefaultSnippetDirectory
    simp only []
    split <;> rfl
  have hres : (ensureDefaultSnippetDirectory (some p) appSupport resolveErr isDirectory
      makedirErr).settled = .resolved →
      (ensureDefaultSnippetDirectory (some p) appSupport resolveErr isDirectory
        makedirErr).persisted = defaultDirectoryPath (some p) appSupport := by
    unfold ensureDefaultSnippetDirectory
    simp only []
    split
    · intro h; cases h
    · intro _; rfl
  have hrej : (ensureDefaultSnippetDirectory (some p) appSupport resolveErr isDirectory
      makedirErr).settled = .rejected →
      (ensureDefaultSnippetDirectory (some p) appSupport resolveErr isDirectory
        makedirErr).persisted = appSupport ++ utf16 "/snippets/" := by
    unfold ensureDefaultSnippetDirectory
    simp only []
    split
    · intro _; rfl
    · intro h; cases h
  rw [hpath]
  exact ⟨defaultDirectoryPath_spelled_out p appSupport, default_path_no_backslash p appSupport,
    default_path_ends_slash p appSupport, default_path_double_slash p appSupport, hres, hrej⟩

/-- Witness for C9 as amended: the configured Windows path "C:\snippets" is resolved as
"C:/snippets/", and that is what is persisted when the directory exists. -/
theorem default_directory_normalised_witness :
    (ensureDefaultSnippetDirectory (some (utf16 "C:\\snippets")) (utf16 "/support") none true
        none).path = utf16 "C:/snippets/" ∧
      (ensureDefaultSnippetDirectory (some (utf16 "C:\\snippets")) (utf16 "/support") none true
        none).persisted = utf16 "C:/snippets/" :=
  ⟨(default_directory_normalised (utf16 "C:\\snippets") (utf16 "/support") none true none).1.trans
      (by decide),
    ((default_directory_normalised (utf16 "C:\\snippets") (utf16 "/support") none true
        none).2.2.2.2.1 (by decide)).trans
      ((default_directory_normalised (utf16 "C:\\snippets") (utf16 "/support") none true
        none).1.trans (by decide))⟩

/-- C10 fails on the code: when the listing of `default_snippets` holds a plain file, the
file is registered as an auto-load directory. -/
theorem file_entry_is_registered :
    checkDefaultSnippetsDirectories [] none none
        [⟨utf16 "/ext/default_snippets/README.md", false⟩,
         ⟨utf16 "/ext/default_snippets/html/", true⟩] =
      ([⟨utf16 "/ext/default_snippets/README.md", true⟩,
        ⟨utf16 "/ext/default_snippets/html/", true⟩], .resolved) := by
  decide

/-- C5: for every collection and every non-empty query, whatever characters it contains,
`search` returns (the `RegExp` constructor does not throw) exactly the records of the
collection, in collection order, whose name contains the query as a literal substring up
to the case folding of the `i` flag, the run time's upper case table agreeing with ASCII
on the ASCII code units; for a query of ASCII characters these are the records whose
lower-cased name contains the lower-cased query. With the records named "xa.by" and "aXb",
the queries "a.b" and "A.B" return only the first, the query "B" returns both, and the
query "x" returns both. -/
theorem search_matches_literal_substring (toUpperCase : Nat → JSString) (st : Store)
    (query : JSString) (hq : query ≠ [])
    (hup : ∀ c, c < 128 → toUpperCase c = asciiToUpperCase c) :
    search toUpperCase st (some query) =
        some ((getAll st).filter fun snippet =>
          decide (query.map (canonicalize toUpperCase) <:+:
            snippet.name.map (canonicalize toUpperCase))) ∧
      ((∀ c ∈ query, c < 128) →
        search toUpperCase st (some query) =
          some ((getAll st).filter fun snippet => containsIgnoringCase query snippet.name)) ∧
      search asciiToUpperCase
          ⟨[⟨1, utf16 "xa.by", [], none, none⟩, ⟨2, utf16 "aXb", [], none, none⟩], 2⟩
          (some (utf16 "a.b")) =
        some [⟨1, utf16 "xa.by", [], none, none⟩] ∧
      search asciiToUpperCase
          ⟨[⟨1, utf16 "xa.by", [], none, none⟩, ⟨2, utf16 "aXb", [], none, none⟩], 2⟩
          (some (utf16 "A.B")) =
        some [⟨1, utf16 "xa.by", [], none, none⟩] ∧
      search asciiToUpperCase
          ⟨[⟨1, utf16 "xa.by", [], none, none⟩, ⟨2, utf16 "aXb", [], none, none⟩], 2⟩
          (some (utf16 "B")) =
        some [⟨1, utf16 "xa.by", [], none, none⟩, ⟨2, utf16 "aXb", [], none, none⟩] ∧
      search asciiToUpperCase
          ⟨[⟨1, utf16 "xa.by", [], none, none⟩, ⟨2, utf16 "aXb", [], none, none⟩], 2⟩
          (some (utf16 "x")) =
        some [⟨1, utf16 "xa.by", [], none, none⟩, ⟨2, utf16 "aXb", [], none, none⟩] := by
  have ht : truthy (some query) = true := by
    cases query with
    | nil => exact absurd rfl hq
    | cons c cs => rfl
  have hmain : search toUpperCase st (some query) =
      some ((getAll st).filter fun snippet =>
        decide (query.map (canonicalize toUpperCase) <:+:
          snippet.name.map (canonicalize toUpperCase))) := by
    unfold search
    simp only [ht, Bool.not_true, Bool.false_eq_true, if_false, Option.getD_some,
      parsePattern_escapeRegExp, getAll]
    congr 1
    apply List.filter_congr
    intro s _
    rw [Bool.eq_iff_iff, regExpTest_literal]
    simp
  refine ⟨hmain, ?_, by decide, by decide, by decide, by decide⟩
  intro hascii
  rw [hmain]
  congr 1
  apply List.filter_congr
  intro s _
  unfold containsIgnoringCase
  rw [Bool.eq_iff_iff, decide_eq_true_iff, decide_eq_true_iff]
  exact infix_map_congr _ _ query s.name
    (fun a ha b => canonicalize_eq_iff toUpperCase hup a b (hascii a ha))

/-- Witness for C5: the upper case query "A.B" finds the record named "xa.by" and not the
one named "aXb". -/
theorem search_matches_literal_substring_witness :
    search asciiToUpperCase
        ⟨[⟨1, utf16 "xa.by", [], none, none⟩, ⟨2, utf16 "aXb", [], none, none⟩], 2⟩
        (some (utf16 "A.B")) =
      some [⟨1, utf16 "xa.by", [], none, none⟩] :=
  ((search_matches_literal_substring asciiToUpperCase
    ⟨[⟨1, utf16 "xa.by", [], none, none⟩, ⟨2, utf16 "aXb", [], none, none⟩], 2⟩
    (utf16 "A.B") (by decide) (fun _ _ => rfl)).2.1 (by decide)).trans (by decide)


end Snippets
